import Mathlib

/-!
Shallow embedding of the `deck` crate (`src/lib.rs`): a deck of cards with a
draw pile, a discard pile and a removed pile, supporting draws from either
end, shuffling, and randomized sparse insertion (`put_sparse` / `split`).

Conventions of the embedding:
* `Vec<T>` becomes `List α`; index 0 is the bottom of the pile.
* Randomness: the thread RNG is modelled by an outcome stream
  `rand : Nat → Nat`; `gen_range(0..=k)` maps the next raw outcome `r`
  into the inclusive range as `r % (k + 1)`, so universally quantifying
  over `rand` ranges over every possible outcome of the random source.
* Fallible behaviour (a Rust panic, or divergence of a loop) is modelled
  with `Option`: the checked variants return `none` exactly where the Rust
  code would panic (out-of-bounds index, division by zero) or hang
  (fuel exhaustion of the `while` loop in `split`).
-/

namespace DeckLib

/-- `Deck<T>`: the three piles of the deck. -/
structure Deck (α : Type) where
  draw_pile : List α
  discard_pile : List α
  removed_pile : List α

/-- `thread_rng().gen_range(0..=k)`: an arbitrary raw RNG outcome `r` is
mapped into the inclusive range `[0, k]`. -/
def gen_range (k r : Nat) : Nat := r % (k + 1)

/-- `Deck::new()`. -/
def Deck.new (α : Type) : Deck α := ⟨[], [], []⟩

/-- `Deck::can_draw()`: `self.draw_pile.len() > 0`. -/
def Deck.can_draw (d : Deck α) : Bool := decide (d.draw_pile.length > 0)

/-- `Deck::remaining()`: `self.draw_pile.len()`. -/
def Deck.remaining (d : Deck α) : Nat := d.draw_pile.length

/-- `Deck::draw_top()`: `self.draw_pile.pop()`. -/
def Deck.draw_top (d : Deck α) : Option α × Deck α :=
  (d.draw_pile.getLast?, { d with draw_pile := d.draw_pile.dropLast })

/-- `Deck::put_top(x)`: `self.draw_pile.push(x)`. -/
def Deck.put_top (d : Deck α) (x : α) : Deck α :=
  { d with draw_pile := d.draw_pile ++ [x] }

/-- `Deck::put_bottom(x)`: `self.draw_pile.insert(0, x)`. -/
def Deck.put_bottom (d : Deck α) (x : α) : Deck α :=
  { d with draw_pile := x :: d.draw_pile }

/-- `Deck::draw_bottom()`: return `None` on an empty pile, otherwise read
`draw_pile[0]` and `remove(0)` it. -/
def Deck.draw_bottom (d : Deck α) : Option α × Deck α :=
  if d.draw_pile.isEmpty then (none, d)
  else (d.draw_pile[0]?, { d with draw_pile := d.draw_pile.eraseIdx 0 })

/-- Checked variant of `draw_bottom`: the index `draw_pile[0]` is performed
through `[·]?`, and an out-of-bounds access (a Rust panic) yields `none`. -/
def Deck.draw_bottomChecked (d : Deck α) : Option (Option α × Deck α) :=
  if d.draw_pile.isEmpty then some (none, d)
  else
    match d.draw_pile[0]? with
    | none => none
    | some value => some (some value, { d with draw_pile := d.draw_pile.eraseIdx 0 })

/-- `Deck::discard(x)`: `self.discard_pile.push(x)`. -/
def Deck.discard (d : Deck α) (x : α) : Deck α :=
  { d with discard_pile := d.discard_pile ++ [x] }

/-- `Deck::remove(x)`: `self.removed_pile.push(x)`. -/
def Deck.remove (d : Deck α) (x : α) : Deck α :=
  { d with removed_pile := d.removed_pile ++ [x] }

/-- The inner copy loop of `split`:
`for i in 0..size { new_element.push(source[start + i]); }`.
Each index is performed through `[·]?`; an out-of-bounds access (a Rust
panic) yields `none`. -/
def copyRange (source : List α) (start : Nat) : Nat → Option (List α)
  | 0 => some []
  | size + 1 =>
    match source[start]? with
    | none => none
    | some a => (copyRange source (start + 1) size).map (a :: ·)

/-- The `while start < source.len()` loop of `split`, with fuel.  Each
iteration builds one bucket of `bucket_standard_size` elements plus one
extra while `carry > 0`.  Fuel exhaustion with the guard still true models
divergence of the loop and yields `none`; `split_flatten` below shows the
fuel supplied by `split` is never exhausted. -/
def splitGo (source : List α) (bucket_standard_size : Nat) :
    Nat → Nat → Nat → Option (List (List α))
  | 0, _, start => if start < source.length then none else some []
  | fuel + 1, carry, start =>
    if start < source.length then
      let size := bucket_standard_size + if carry > 0 then 1 else 0
      match copyRange source start size with
      | none => none
      | some new_element =>
        match splitGo source bucket_standard_size fuel
            (carry - if carry > 0 then 1 else 0) (start + size) with
        | none => none
        | some rest => some (new_element :: rest)
    else some []

/-- `split(source, n)`: `bucket_standard_size = source.len() / n`,
`carry = source.len() % n`, then the while loop starting at `start = 0`.
`n = 0` makes the division panic in Rust and yields `none` here. -/
def split (source : List α) (n : Nat) : Option (List (List α)) :=
  if n = 0 then none
  else splitGo source (source.length / n) (source.length + 1) (source.length % n) 0

/-- The insertion loop of `put_sparse`: for the `i`-th bucket, draw the
next RNG outcome, insert `x` at `gen_range(0..=bucket.len())`, and append
the bucket to the accumulated draw pile. -/
def sparseLoop (x : α) (rand : Nat → Nat) : List (List α) → Nat → List α
  | [], _ => []
  | bucket :: rest, i =>
    bucket.insertIdx (gen_range bucket.length (rand i)) x ++ sparseLoop x rand rest (i + 1)

/-- Checked variant of `Deck::put_sparse(x, buckets)`: return early when
`buckets == 0`, otherwise split the draw pile and rebuild it with one copy
of `x` inserted per bucket.  `none` propagates a panic of `split`. -/
def Deck.put_sparseChecked (d : Deck α) (x : α) (buckets : Nat) (rand : Nat → Nat) :
    Option (Deck α) :=
  if buckets = 0 then some d
  else
    match split d.draw_pile buckets with
    | none => none
    | some elements => some { d with draw_pile := sparseLoop x rand elements 0 }

/-- `Deck::put_sparse(x, buckets)`; `no_panic` below shows the checked
variant never returns `none`, so the `getD` default is never used. -/
def Deck.put_sparse (d : Deck α) (x : α) (buckets : Nat) (rand : Nat → Nat) : Deck α :=
  (d.put_sparseChecked x buckets rand).getD d

/-- `Vec::swap(i, j)` on lists.  The indices used by the shuffle are always
in range; out-of-range indices leave the list unchanged. -/
def listSwap (l : List α) (i j : Nat) : List α :=
  match l[i]?, l[j]? with
  | some a, some b => (l.set i b).set j a
  | _, _ => l

/-- Fisher-Yates as implemented by rand's `SliceRandom::shuffle`:
`for i in (1..len).rev() { swap(i, gen_range(0..=i)) }`, here recursing
from `i` down to `1`. -/
def fisherYatesGo (rand : Nat → Nat) : Nat → List α → List α
  | 0, l => l
  | i + 1, l => fisherYatesGo rand i (listSwap l (i + 1) (gen_range (i + 1) (rand (i + 1))))

/-- `slice.shuffle(&mut thread_rng())` on a list. -/
def fisherYates (rand : Nat → Nat) (l : List α) : List α :=
  fisherYatesGo rand (l.length - 1) l

/-- `Deck::shuffle_draw()`. -/
def Deck.shuffle_draw (d : Deck α) (rand : Nat → Nat) : Deck α :=
  { d with draw_pile := fisherYates rand d.draw_pile }

/-- `Deck::shuffle_discard()`. -/
def Deck.shuffle_discard (d : Deck α) (rand : Nat → Nat) : Deck α :=
  { d with discard_pile := fisherYates rand d.discard_pile }

/-! ### Lemmas about the random source and the copy loop -/

theorem gen_range_le (k r : Nat) : gen_range k r ≤ k :=
  Nat.lt_succ_iff.mp (Nat.mod_lt r (Nat.succ_pos k))

theorem copyRange_eq (source : List α) :
    ∀ (size start : Nat), start + size ≤ source.length →
      copyRange source start size = some ((source.drop start).take size) := by
  intro size
  induction size with
  | zero => intro start h; simp [copyRange]
  | succ k ih =>
    intro start h
    have hs : start < source.length := by omega
    rw [copyRange, List.getElem?_eq_getElem hs, ih (start + 1) (by omega)]
    simp only [Option.map_some']
    rw [List.drop_eq_getElem_cons hs, List.take_succ_cons]

/-! ### Characterization of the split loop -/

theorem splitGo_char (source : List α) (std : Nat) (hstd : 1 ≤ std) :
    ∀ (m carry start fuel : Nat), carry ≤ m →
      source.length - start = std * m + carry →
      source.length - start < fuel →
      ∃ bs, splitGo source std fuel carry start = some bs ∧
        bs.map List.length =
          List.replicate carry (std + 1) ++ List.replicate (m - carry) std ∧
        bs.flatten = source.drop start := by
  intro m
  induction m with
  | zero =>
    intro carry start fuel hcm hrem hfuel
    have hc : carry = 0 := Nat.le_zero.mp hcm
    subst hc
    have hstart : ¬ start < source.length := by omega
    match fuel, hfuel with
    | fuel + 1, _ =>
      refine ⟨[], ?_, by simp, ?_⟩
      · rw [splitGo, if_neg hstart]
      · simp [List.drop_eq_nil_of_le (by omega : source.length ≤ start)]
  | succ m ih =>
    intro carry start fuel hcm hrem hfuel
    have hmul : std ≤ std * (m + 1) := Nat.le_mul_of_pos_right std (Nat.succ_pos m)
    have hstart : start < source.length := by omega
    match fuel, hfuel with
    | fuel + 1, hfuel =>
      rcases carry with _ | c
      · -- carry = 0: bucket of size std
        have hsz : start + std ≤ source.length := by omega
        have hrem' : source.length - (start + std) = std * m + 0 := by
          have hm : std * (m + 1) = std * m + std := by ring
          omega
        obtain ⟨bs, hbs, hmap, hflat⟩ :=
          ih 0 (start + std) fuel (Nat.zero_le m) hrem' (by omega)
        refine ⟨(source.drop start).take std :: bs, ?_, ?_, ?_⟩
        · rw [splitGo, if_pos hstart]
          simp only [gt_iff_lt, Nat.lt_irrefl, if_false, Nat.add_zero, Nat.sub_zero]
          rw [copyRange_eq source std start hsz, hbs]
        · simp only [List.map_cons, hmap, Nat.sub_zero, List.replicate,
            List.nil_append]
          rw [List.length_take, List.length_drop]
          congr 1
          omega
        · simp only [List.flatten_cons, hflat]
          have hdd : source.drop (start + std) = (source.drop start).drop std :=
            (List.drop_drop std start source).symm
          rw [hdd, List.take_append_drop]
      · -- carry = c + 1: bucket of size std + 1
        have hc1 : (0 : Nat) < c + 1 := Nat.succ_pos c
        have hsz : start + (std + 1) ≤ source.length := by omega
        have hrem' : source.length - (start + (std + 1)) = std * m + c := by
          have hm : std * (m + 1) = std * m + std := by ring
          omega
        obtain ⟨bs, hbs, hmap, hflat⟩ :=
          ih c (start + (std + 1)) fuel (by omega) hrem' (by omega)
        refine ⟨(source.drop start).take (std + 1) :: bs, ?_, ?_, ?_⟩
        · rw [splitGo, if_pos hstart]
          simp only [gt_iff_lt, hc1, if_true, Nat.succ_sub_one]
          rw [copyRange_eq source (std + 1) start hsz, hbs]
        · simp only [List.map_cons, hmap, List.replicate, Nat.succ_sub_succ]
          rw [List.length_take, List.length_drop]
          congr 1
          omega
        · simp only [List.flatten_cons, hflat]
          have hdd : source.drop (start + (std + 1)) = (source.drop start).drop (std + 1) :=
            (List.drop_drop (std + 1) start source).symm
          rw [hdd, List.take_append_drop]

theorem splitGo_singletons (source : List α) :
    ∀ (carry start fuel : Nat),
      source.length - start = carry →
      source.length - start < fuel →
      splitGo source 0 fuel carry start =
        some ((source.drop start).map fun a => [a]) := by
  intro carry
  induction carry with
  | zero =>
    intro start fuel hrem hfuel
    have hstart : ¬ start < source.length := by omega
    match fuel, hfuel with
    | fuel + 1, _ =>
      rw [splitGo, if_neg hstart]
      simp [List.drop_eq_nil_of_le (by omega : source.length ≤ start)]
  | succ c ih =>
    intro start fuel hrem hfuel
    have hstart : start < source.length := by omega
    match fuel, hfuel with
    | fuel + 1, hfuel =>
      rw [splitGo, if_pos hstart]
      simp only [gt_iff_lt, Nat.succ_pos, if_true, Nat.zero_add, Nat.succ_sub_one]
      rw [copyRange_eq source 1 start (by omega)]
      rw [ih (start + 1) fuel (by omega) (by omega)]
      rw [List.drop_eq_getElem_cons hstart]
      simp only [List.take_succ_cons, List.take_zero, List.map_cons]

/-- With `1 ≤ n ≤ L`, `split` yields exactly `n` buckets: the first `L % n`
of size `L / n + 1`, the rest of size `L / n`, concatenating back to the
source. -/
theorem split_eq_of_le (source : List α) (n : Nat) (hn : 1 ≤ n)
    (hnL : n ≤ source.length) :
    ∃ bs, split source n = some bs ∧ bs.length = n ∧
      bs.map List.length =
        List.replicate (source.length % n) (source.length / n + 1) ++
          List.replicate (n - source.length % n) (source.length / n) ∧
      bs.flatten = source := by
  have hstd : 1 ≤ source.length / n := (Nat.one_le_div_iff (by omega)).mpr hnL
  have hcm : source.length % n ≤ n := le_of_lt (Nat.mod_lt _ (by omega))
  have hrem : source.length - 0 = source.length / n * n + source.length % n := by
    rw [Nat.sub_zero, Nat.mul_comm]
    exact (Nat.div_add_mod source.length n).symm
  obtain ⟨bs, hbs, hmap, hflat⟩ :=
    splitGo_char source (source.length / n) hstd n (source.length % n) 0
      (source.length + 1) hcm hrem (by omega)
  refine ⟨bs, ?_, ?_, hmap, by simpa using hflat⟩
  · rw [split, if_neg (by omega : ¬ n = 0)]
    exact hbs
  · have hlen := congrArg List.length hmap
    simp only [List.length_map, List.length_append, List.length_replicate] at hlen
    omega

/-- With `L < n`, `split` yields one singleton bucket per source element. -/
theorem split_eq_of_gt (source : List α) (n : Nat) (hn : 1 ≤ n)
    (hgt : source.length < n) :
    split source n = some (source.map fun a => [a]) := by
  rw [split, if_neg (by omega : ¬ n = 0), Nat.div_eq_of_lt hgt, Nat.mod_eq_of_lt hgt]
  simpa using
    splitGo_singletons source source.length 0 (source.length + 1) (by omega) (by omega)

theorem flatten_map_singleton (l : List α) : (l.map fun a => [a]).flatten = l := by
  induction l with
  | nil => rfl
  | cons a t ih => simp [ih]

/-- For every bucket count `n ≥ 1`, `split` succeeds (the while loop
terminates and all its indices are in bounds), producing `min n L`
buckets that concatenate back to the source. -/
theorem split_flatten (source : List α) (n : Nat) (hn : 1 ≤ n) :
    ∃ bs, split source n = some bs ∧ bs.flatten = source ∧
      bs.length = min n source.length := by
  rcases le_or_lt n source.length with h | h
  · obtain ⟨bs, h1, h2, _, h4⟩ := split_eq_of_le source n hn h
    exact ⟨bs, h1, h4, by rw [h2, Nat.min_eq_left h]⟩
  · refine ⟨source.map fun a => [a], split_eq_of_gt source n hn h,
      flatten_map_singleton source, ?_⟩
    rw [List.length_map, Nat.min_eq_right (le_of_lt h)]

/-! ### Lemmas about the insertion loop -/

theorem sublist_insertIdx (l : List α) (x : α) :
    ∀ (r : Nat), l.Sublist (l.insertIdx r x) := by
  induction l with
  | nil =>
    intro r
    cases r with
    | zero => exact List.nil_sublist [x]
    | succ r => rw [List.insertIdx_succ_nil]
  | cons a t ih =>
    intro r
    cases r with
    | zero =>
      rw [List.insertIdx_zero]
      exact List.sublist_cons_self x (a :: t)
    | succ r =>
      rw [List.insertIdx_succ_cons]
      exact List.Sublist.cons₂ a (ih r)

theorem sparseLoop_length (x : α) (rand : Nat → Nat) :
    ∀ (bs : List (List α)) (i : Nat),
      (sparseLoop x rand bs i).length = bs.flatten.length + bs.length := by
  intro bs
  induction bs with
  | nil => intro i; simp [sparseLoop]
  | cons b rest ih =>
    intro i
    simp only [sparseLoop, List.length_append, List.flatten_cons, List.length_cons,
      ih (i + 1)]
    rw [List.length_insertIdx _ _ (gen_range_le b.length (rand i))]
    omega

theorem sparseLoop_sublist (x : α) (rand : Nat → Nat) :
    ∀ (bs : List (List α)) (i : Nat), bs.flatten.Sublist (sparseLoop x rand bs i) := by
  intro bs
  induction bs with
  | nil => intro i; simp [sparseLoop]
  | cons b rest ih =>
    intro i
    simp only [sparseLoop, List.flatten_cons]
    exact List.Sublist.append (sublist_insertIdx b x _) (ih (i + 1))

/-- Unfolding of `put_sparse` when `split` succeeds. -/
theorem put_sparse_eq (d : Deck α) (x : α) (n : Nat) (rand : Nat → Nat)
    (bs : List (List α)) (hn : ¬ n = 0) (hs : split d.draw_pile n = some bs) :
    d.put_sparse x n rand = { d with draw_pile := sparseLoop x rand bs 0 } := by
  rw [Deck.put_sparse, Deck.put_sparseChecked, if_neg hn, hs]
  rfl

/-! ### Lemmas about the shuffle -/

theorem get_cons_set_perm (t : List α) :
    ∀ (k : Nat) (hk : k < t.length) (x : α),
      (t.get ⟨k, hk⟩ :: t.set k x).Perm (x :: t) := by
  induction t with
  | nil => intro k hk; simp at hk
  | cons y s ih =>
    intro k hk x
    cases k with
    | zero =>
      simp only [List.get, List.set]
      exact List.Perm.swap x y s
    | succ k =>
      simp only [List.get, List.set]
      exact (List.Perm.swap y _ _).trans
        (((ih k (by simpa using hk) x).cons y).trans (List.Perm.swap x y s))

theorem set_set_perm (l : List α) :
    ∀ (i j : Nat) (hi : i < l.length) (hj : j < l.length),
      ((l.set i (l.get ⟨j, hj⟩)).set j (l.get ⟨i, hi⟩)).Perm l := by
  induction l with
  | nil => intro i j hi _; simp at hi
  | cons a t ih =>
    intro i j hi hj
    cases i with
    | zero =>
      cases j with
      | zero => simp
      | succ j =>
        simp only [List.get, List.set]
        exact get_cons_set_perm t j (by simpa using hj) a
    | succ i =>
      cases j with
      | zero =>
        simp only [List.get, List.set]
        exact get_cons_set_perm t i (by simpa using hi) a
      | succ j =>
        simp only [List.get, List.set]
        exact (ih i j (by simpa using hi) (by simpa using hj)).cons a

theorem listSwap_perm (l : List α) (i j : Nat) : (listSwap l i j).Perm l := by
  rcases hi : l[i]? with _ | a
  · rw [listSwap, hi]
  · rcases hj : l[j]? with _ | b
    · rw [listSwap, hi, hj]
    · have hi' : i < l.length := by
        by_contra h
        rw [List.getElem?_eq_none (by omega)] at hi
        exact Option.noConfusion hi
      have hj' : j < l.length := by
        by_contra h
        rw [List.getElem?_eq_none (by omega)] at hj
        exact Option.noConfusion hj
      have ha : a = l.get ⟨i, hi'⟩ := by
        rw [List.getElem?_eq_getElem hi'] at hi
        exact (Option.some_inj.mp hi).symm
      have hb : b = l.get ⟨j, hj'⟩ := by
        rw [List.getElem?_eq_getElem hj'] at hj
        exact (Option.some_inj.mp hj).symm
      rw [listSwap, hi, hj, ha, hb]
      exact set_set_perm l i j hi' hj'

theorem fisherYatesGo_perm (rand : Nat → Nat) :
    ∀ (n : Nat) (l : List α), (fisherYatesGo rand n l).Perm l := by
  intro n
  induction n with
  | zero => intro l; exact List.Perm.refl l
  | succ n ih =>
    intro l
    rw [fisherYatesGo]
    exact (ih _).trans (listSwap_perm l (n + 1) _)

theorem fisherYates_perm (rand : Nat → Nat) (l : List α) :
    (fisherYates rand l).Perm l :=
  fisherYatesGo_perm rand (l.length - 1) l

/-! ### Claim theorems -/

/-- Claim C1, counterexample: on a deck whose draw pile is `[0]` (so `L = 1`),
`put_sparse` with bucket count `n = 2` yields a draw pile of length 2, not
the claimed `L + n = 3`: `split` produces only one bucket, so only one copy
of the value is inserted. -/
theorem put_sparse_length_counterexample :
    ¬ (((Deck.mk [0] [] [] : Deck Nat).put_sparse 9 2 fun _ => 0).draw_pile.length
        = 1 + 2) := by
  decide

/-- Claim C1 (amended): for every deck, value `x`, bucket count `n ≥ 1` and
every outcome of the random source, `put_sparse` leaves the draw pile with
length `L + min n L`: `split` produces `min n L` buckets and exactly one copy
of `x` is inserted per bucket.  The claimed `L + n` holds exactly when
`n ≤ L`; for `n > L` only `L` copies are inserted, and for `L = 0` none. -/
theorem put_sparse_length (α : Type) (d : Deck α) (x : α) (n : Nat)
    (rand : Nat → Nat) (hn : 1 ≤ n) :
    ((d.put_sparse x n rand).draw_pile).length
      = d.draw_pile.length + min n d.draw_pile.length := by
  obtain ⟨bs, hbs, hflat, hlen⟩ := split_flatten d.draw_pile n hn
  rw [put_sparse_eq d x n rand bs (by omega) hbs]
  show (sparseLoop x rand bs 0).length = _
  rw [sparseLoop_length, hflat, hlen]

/-- Claim C1 (amended), witness at `draw = [0,1,2]`, `x = 7`, `n = 2`. -/
theorem put_sparse_length_witness :
    1 ≤ 2 ∧
    (((Deck.mk [0, 1, 2] [] [] : Deck Nat).put_sparse 7 2 fun _ => 1).draw_pile).length
      = 3 + min 2 3 :=
  ⟨by decide, put_sparse_length Nat (Deck.mk [0, 1, 2] [] []) 7 2 (fun _ => 1) (by decide)⟩

/-- Claim C2: for `1 ≤ n ≤ L`, `put_sparse` partitions the original `L`
elements into exactly `n` contiguous buckets that concatenate back to the
original draw pile, the first `L % n` of size `⌈L/n⌉ = L/n + 1` and the rest
of size `⌊L/n⌋` (so sizes differ by at most 1); and for every outcome of the
random source, the i-th copy of the value is inserted into the i-th bucket at
one of its `bucket_size + 1` insertion points (an index `≤ bucket_size`),
the result being the concatenation of the buckets after these insertions. -/
theorem put_sparse_buckets (α : Type) (d : Deck α) (x : α) (n : Nat)
    (rand : Nat → Nat) (hn : 1 ≤ n) (hnL : n ≤ d.draw_pile.length) :
    ∃ bs, split d.draw_pile n = some bs ∧
      bs.length = n ∧
      bs.map List.length =
        List.replicate (d.draw_pile.length % n) (d.draw_pile.length / n + 1) ++
          List.replicate (n - d.draw_pile.length % n) (d.draw_pile.length / n) ∧
      bs.flatten = d.draw_pile ∧
      (d.put_sparse x n rand).draw_pile = sparseLoop x rand bs 0 ∧
      ∀ (i : Nat) (h : i < bs.length),
        gen_range (bs.get ⟨i, h⟩).length (rand i) ≤ (bs.get ⟨i, h⟩).length := by
  obtain ⟨bs, h1, h2, h3, h4⟩ := split_eq_of_le d.draw_pile n hn hnL
  refine ⟨bs, h1, h2, h3, h4, ?_, fun i h => gen_range_le _ _⟩
  rw [put_sparse_eq d x n rand bs (by omega) h1]

/-- Claim C2, witness at `draw = [0,1,2,3,4]`, `x = 9`, `n = 2`. -/
theorem put_sparse_buckets_witness :
    1 ≤ 2 ∧ 2 ≤ 5 ∧
    (∃ bs, split [0, 1, 2, 3, 4] 2 = some bs ∧
      bs.length = 2 ∧
      bs.map List.length = List.replicate 1 3 ++ List.replicate 1 2 ∧
      bs.flatten = [0, 1, 2, 3, 4] ∧
      ((Deck.mk [0, 1, 2, 3, 4] [] [] : Deck Nat).put_sparse 9 2
          fun i => 3 * i + 1).draw_pile = sparseLoop 9 (fun i => 3 * i + 1) bs 0 ∧
      ∀ (i : Nat) (h : i < bs.length),
        gen_range (bs.get ⟨i, h⟩).length (3 * i + 1) ≤ (bs.get ⟨i, h⟩).length) :=
  ⟨by decide, by decide,
    put_sparse_buckets Nat (Deck.mk [0, 1, 2, 3, 4] [] []) 9 2
      (fun i => 3 * i + 1) (by decide) (by decide)⟩

/-- Claim C3: for every deck, value, bucket count and outcome of the random
source, the original draw pile is a subsequence of the draw pile after
`put_sparse`: the relative order of the pre-existing elements is preserved
and only the inserted copies are interleaved among them. -/
theorem put_sparse_preserves_order (α : Type) (d : Deck α) (x : α) (n : Nat)
    (rand : Nat → Nat) :
    d.draw_pile.Sublist (d.put_sparse x n rand).draw_pile := by
  rcases Nat.eq_zero_or_pos n with h0 | h1
  · subst h0
    exact List.Sublist.refl _
  · obtain ⟨bs, hbs, hflat, _⟩ := split_flatten d.draw_pile n h1
    rw [put_sparse_eq d x n rand bs (by omega) hbs]
    have h := sparseLoop_sublist x rand bs 0
    rw [hflat] at h
    exact h

/-- Claim C4, counterexample: on a deck with an empty draw pile, `put_sparse`
with `n = 1` leaves the draw pile empty instead of producing the claimed
`[x]`: `split` of an empty slice yields no buckets at all, so the insertion
loop never runs. -/
theorem put_sparse_empty_counterexample :
    ¬ (((Deck.mk [] [] [] : Deck Nat).put_sparse 5 1 fun _ => 0).draw_pile = [5]) := by
  decide

/-- Claim C4 (amended): for every deck whose draw pile is empty and every
bucket count, `put_sparse` is a no-op: `split` yields zero buckets, nothing
is inserted, and the deck (in particular the draw pile, which stays empty)
is unchanged. -/
theorem put_sparse_empty_noop (α : Type) (d : Deck α) (x : α) (n : Nat)
    (rand : Nat → Nat) (h : d.draw_pile = []) : d.put_sparse x n rand = d := by
  rcases Nat.eq_zero_or_pos n with h0 | h1
  · subst h0
    rfl
  · have hsplit : split d.draw_pile n = some [] := by
      obtain ⟨bs, hbs, hflat, hlen⟩ := split_flatten d.draw_pile n h1
      rw [h] at hlen
      simp only [List.length_nil, Nat.min_zero] at hlen
      rw [hbs, List.length_eq_zero.mp hlen]
    rw [put_sparse_eq d x n rand [] (by omega) hsplit]
    rcases d with ⟨dr, di, re⟩
    simp only [Deck.mk.injEq, and_true, true_and]
    rw [show sparseLoop x rand [] 0 = [] from rfl]
    exact h.symm

/-- Claim C4 (amended), witness at an empty draw pile with `n = 3`. -/
theorem put_sparse_empty_noop_witness :
    (Deck.mk ([] : List Nat) [4] []).draw_pile = [] ∧
    (Deck.mk ([] : List Nat) [4] []).put_sparse 5 3 (fun _ => 0) = Deck.mk [] [4] [] :=
  ⟨rfl, put_sparse_empty_noop Nat (Deck.mk [] [4] []) 5 3 (fun _ => 0) rfl⟩

/-- Claim C5: `put_sparse` with bucket count 0 returns early (before the
division `L / n` is ever performed) and leaves the deck — in particular the
draw pile, its length and its contents — exactly unchanged. -/
theorem put_sparse_zero_noop (α : Type) (d : Deck α) (x : α) (rand : Nat → Nat) :
    d.put_sparse x 0 rand = d := rfl

/-- Claim C6: no deck operation panics.  The checked variants — in which
every slice index of `draw_bottom` and of `split`'s copy loop is performed
fallibly, a division by zero in `split` is fallible, and divergence of the
`split` loop is modelled by fuel exhaustion — always return `some`; and
drawing from an empty pile yields the explicit `none` rather than failing. -/
theorem no_panic (α : Type) :
    (∀ d : Deck α, (d.draw_bottomChecked).isSome = true) ∧
    (∀ (d : Deck α) (x : α) (n : Nat) (rand : Nat → Nat),
      (d.put_sparseChecked x n rand).isSome = true) ∧
    (∀ d : Deck α, d.draw_pile = [] → (d.draw_bottom).1 = none) := by
  refine ⟨?_, ?_, ?_⟩
  · intro d
    rcases hd : d.draw_pile with _ | ⟨a, t⟩
    · simp [Deck.draw_bottomChecked, hd]
    · simp [Deck.draw_bottomChecked, hd]
  · intro d x n rand
    rcases Nat.eq_zero_or_pos n with h0 | h1
    · subst h0
      simp [Deck.put_sparseChecked]
    · obtain ⟨bs, hbs, -, -⟩ := split_flatten d.draw_pile n h1
      rw [Deck.put_sparseChecked, if_neg (by omega : ¬ n = 0), hbs]
      rfl
  · intro d h
    simp [Deck.draw_bottom, h]

/-- Claim C6, witness at concrete decks. -/
theorem no_panic_witness :
    ((Deck.mk [3] [] [] : Deck Nat).draw_bottomChecked).isSome = true ∧
    ((Deck.mk [0, 1] [] [] : Deck Nat).put_sparseChecked 5 3 fun _ => 0).isSome = true ∧
    ((Deck.mk [] [] [] : Deck Nat).draw_bottom).1 = none :=
  ⟨(no_panic Nat).1 (Deck.mk [3] [] []),
    (no_panic Nat).2.1 (Deck.mk [0, 1] [] []) 5 3 (fun _ => 0),
    (no_panic Nat).2.2 (Deck.mk [] [] []) rfl⟩

/-- Claim C7: `draw_bottom` on an empty draw pile returns `none` and leaves
the deck unchanged; on a non-empty draw pile it returns `some` of the first
(bottom) element, and afterwards the draw pile is the original sequence with
its first element removed (all remaining elements in their original relative
order), the other piles untouched. -/
theorem draw_bottom_spec (α : Type) (d : Deck α) :
    (d.draw_pile = [] → d.draw_bottom = (none, d)) ∧
    (∀ (a : α) (t : List α), d.draw_pile = a :: t →
      d.draw_bottom = (some a, { d with draw_pile := t })) := by
  constructor
  · intro h
    simp [Deck.draw_bottom, h]
  · intro a t h
    simp [Deck.draw_bottom, h]

/-- Claim C7, witness at an empty deck and at `draw = [7, 8]`. -/
theorem draw_bottom_spec_witness :
    (Deck.mk ([] : List Nat) [] []).draw_bottom = (none, Deck.mk [] [] []) ∧
    (Deck.mk [7, 8] ([] : List Nat) []).draw_bottom = (some 7, Deck.mk [8] [] []) :=
  ⟨(draw_bottom_spec Nat (Deck.mk [] [] [])).1 rfl,
    (draw_bottom_spec Nat (Deck.mk [7, 8] [] [])).2 7 [8] rfl⟩

/-- Claim C8: for every deck and every outcome of the random source,
`shuffle_draw` permutes the draw pile (same multiset of elements, so same
length and contents) leaving the discard and removed piles untouched, and
`shuffle_discard` permutes the discard pile leaving the draw and removed
piles untouched. -/
theorem shuffle_spec (α : Type) (d : Deck α) (rand : Nat → Nat) :
    ((d.shuffle_draw rand).draw_pile.Perm d.draw_pile ∧
     (d.shuffle_draw rand).discard_pile = d.discard_pile ∧
     (d.shuffle_draw rand).removed_pile = d.removed_pile) ∧
    ((d.shuffle_discard rand).discard_pile.Perm d.discard_pile ∧
     (d.shuffle_discard rand).draw_pile = d.draw_pile ∧
     (d.shuffle_discard rand).removed_pile = d.removed_pile) :=
  ⟨⟨fisherYates_perm rand d.draw_pile, rfl, rfl⟩,
    ⟨fisherYates_perm rand d.discard_pile, rfl, rfl⟩⟩

/-- Claim C9: `discard x` appends `x` to the discard pile and `remove x`
appends `x` to the removed pile; neither alters the draw pile nor the other
auxiliary pile. -/
theorem discard_remove_spec (α : Type) (d : Deck α) (x : α) :
    (d.discard x).discard_pile = d.discard_pile ++ [x] ∧
    (d.discard x).draw_pile = d.draw_pile ∧
    (d.discard x).removed_pile = d.removed_pile ∧
    (d.remove x).removed_pile = d.removed_pile ++ [x] ∧
    (d.remove x).draw_pile = d.draw_pile ∧
    (d.remove x).discard_pile = d.discard_pile :=
  ⟨rfl, rfl, rfl, rfl, rfl, rfl⟩

/-- Claim C10: for every input slice and every bucket count `n ≥ 1`, the
while loop of `split` terminates (the fuel, one beyond the slice length, is
never exhausted: each iteration builds a bucket of size at least 1), so
`split` — and with it `put_sparse` — is a total, terminating operation. -/
theorem split_terminates (α : Type) (source : List α) (n : Nat) (hn : 1 ≤ n) :
    (split source n).isSome = true := by
  obtain ⟨bs, hbs, -, -⟩ := split_flatten source n hn
  rw [hbs]
  rfl

/-- Claim C10, witness at `source = [0, 1, 2]`, `n = 2`. -/
theorem split_terminates_witness :
    1 ≤ 2 ∧ (split [0, 1, 2] 2).isSome = true :=
  ⟨by decide, split_terminates Nat [0, 1, 2] 2 (by decide)⟩

end DeckLib
